import Mathlib

/-!
Shallow embedding of the step-by-step orchestration engine of the
`level-4-agent-code` repository, together with proofs settling the frozen
claims C1 .. C10 about it.

The embedding translates the TypeScript source into Lean definitions:
pure post-processing functions (`finalizeTestProposals`, diff parsing, the
accumulated-changes ledger update) become Lean functions over the same data;
code whose behaviour depends on external calls (the LLM, `git`, the test
command) becomes a function of an explicit record of those calls' outcomes
(`Except` for throwing calls, a record of exit code and captured streams for
a subprocess).  JavaScript strings are modelled as `String`, with the string
operations used by the source (`split`, `endsWith`, `includes`, anchored
regex `replace`) implemented on the underlying character lists so that every
definition is executable and kernel-reducible.
-/

namespace AgentFlow

/-! ### String helpers mirroring the JavaScript operations used by the source -/

/-- Whitespace test covering the characters relevant to the source's use of
`trim` and of the regex classes `\s` / `\S`. -/
def isSpaceChar (c : Char) : Bool :=
  c == ' ' || c == '\t' || c == '\n' || c == '\r'

/-- Fuel-driven worker for `splitOnSep`; the fuel is an upper bound on the
number of characters still to be consumed, so it never runs out. -/
def splitOnSepGo (sep : List Char) : Nat → List Char → List Char → List (List Char)
  | 0, s, acc => [acc.reverse ++ s]
  | _, [], acc => [acc.reverse]
  | fuel + 1, c :: rest, acc =>
    if sep.isPrefixOf (c :: rest) then
      acc.reverse :: splitOnSepGo sep fuel (List.drop (sep.length - 1) rest) []
    else
      splitOnSepGo sep fuel rest (c :: acc)

/-- JavaScript `String.prototype.split` with a non-empty string separator:
cuts the list at every occurrence of `sep`, keeping empty pieces. -/
def splitOnSep (sep s : List Char) : List (List Char) :=
  splitOnSepGo sep s.length s []

/-- JavaScript `s.endsWith(sfx)`. -/
def endsWithStr (s sfx : String) : Bool :=
  sfx.data.isSuffixOf s.data

/-- Does `sub` occur as a contiguous run inside the second list? -/
def containsSub (sub : List Char) : List Char → Bool
  | [] => sub.isEmpty
  | c :: rest => sub.isPrefixOf (c :: rest) || containsSub sub rest

/-- JavaScript `s.includes(sub)` (substring containment). -/
def containsStr (s sub : String) : Bool :=
  containsSub sub.data s.data

/-- JavaScript `s.replace(re, repl)` for an anchored suffix regex such as
`/\.test\.ts$/`: replaces the suffix when present, otherwise id. -/
def replaceSuffix (s sfx repl : String) : String :=
  if sfx.data.isSuffixOf s.data then
    ⟨s.data.take (s.data.length - sfx.data.length) ++ repl.data⟩
  else s

/-! ### Data model (`src/types`, `src/lib/agents/pr-context.ts`) -/

/-- `FileChange` from `src/types/file-types.ts`: full post-state of one file. -/
structure FileChange where
  file : String
  content : String
deriving DecidableEq

/-- `Step` from `src/types/step-types.ts`. -/
structure Step where
  stepName : String
  stepDescription : String
  stepPlan : String
deriving DecidableEq

/-- One element of `PullRequestContext.changedFiles` (`pr-context.ts`).
`content` is `none` where the source leaves it `undefined`. -/
structure ChangedFile where
  filename : String
  patch : String
  status : String
  additions : Nat
  deletions : Nat
  content : Option String
  excluded : Bool
deriving DecidableEq

/-- `PullRequestContext` (`src/lib/agents/pr-context.ts`). -/
structure PullRequestContext where
  owner : String
  repo : String
  pullNumber : Nat
  headRef : String
  baseRef : String
  title : String
  changedFiles : List ChangedFile
  commitMessages : List String
deriving DecidableEq

/-- One entry of `existingTestFiles` in `PullRequestContextWithTests`. -/
structure ExistingTestFile where
  filename : String
  content : String
deriving DecidableEq

/-- `PullRequestContextWithTests` (`src/lib/agents/pr-context.ts`). -/
structure PullRequestContextWithTests extends PullRequestContext where
  existingTestFiles : List ExistingTestFile
deriving DecidableEq

/-- The `action` discriminator of a test proposal (`test-proposals.ts`). -/
inductive TestAction where
  | create
  | update
  | rename
deriving DecidableEq

/-- The `actions` sub-record of a test proposal. -/
structure TestActions where
  action : TestAction
  oldFilename : String
deriving DecidableEq

/-- `TestProposal` (`src/lib/agents/test-proposals.ts`). -/
structure TestProposal where
  filename : String
  testContent : String
  actions : TestActions
deriving DecidableEq

/-- One entry of `ReviewAnalysis.fileAnalyses` (`code-review.ts`). -/
structure FileAnalysis where
  path : String
  analysis : String
deriving DecidableEq

/-- `ReviewAnalysis` (`src/lib/agents/code-review.ts`). -/
structure ReviewAnalysis where
  summary : String
  fileAnalyses : List FileAnalysis
  overallSuggestions : List String
deriving DecidableEq

/-! ### Planner (`src/lib/agents/planner.ts`) -/

/-- The sentinel step returned by `runPlanner` when the structured LLM call
throws or its output fails schema validation (the `catch` branch). -/
def planErrorStep : Step where
  stepName := "PlanError"
  stepDescription := "Unable to parse planning output or the codebase is too large."
  stepPlan := ""

/-- `runPlanner`, as a function of the outcome of the `generateObject` call:
on success it returns the validated `steps` array, on any thrown error the
single-element `PlanError` plan. -/
def runPlanner (llmResult : Except Unit (List Step)) : List Step :=
  match llmResult with
  | .ok steps => steps
  | .error _ => [planErrorStep]

/-! ### Accumulated-changes ledger (`src/scripts/master-flow.ts`)

The orchestrator maintains `accumulatedChanges` and updates it per change
with `accumulatedChanges = accumulatedChanges.filter(a => a.file !== c.file);
accumulatedChanges.push(c)` (lines 93-96 and 128-131). -/

/-- One iteration of the orchestrator's update loop: drop any prior entry for
the same path, then append the new change. -/
def applyChange (acc : List FileChange) (c : FileChange) : List FileChange :=
  acc.filter (fun a => a.file != c.file) ++ [c]

/-- The whole per-step update: the `for (const c of newChanges)` loop. -/
def updateAccumulated (acc : List FileChange) (newChanges : List FileChange) : List FileChange :=
  newChanges.foldl applyChange acc

/-- The ledger at the end of a run whose steps emitted the given change
lists, starting from the empty ledger. -/
def runLedger (stepChanges : List (List FileChange)) : List FileChange :=
  stepChanges.foldl updateAccumulated []

/-- Reference function: keep, for each path, only the last change that
touched it, at the position of that last touch. -/
def keepLast : List FileChange → List FileChange
  | [] => []
  | c :: rest =>
    if rest.any (fun d => d.file == c.file) then keepLast rest
    else c :: keepLast rest

/-! ### Test-proposal post-processing (`src/lib/agents/test-proposals.ts`) -/

/-- The React detection of `finalizeTestProposals` for one changed file:
`if (!file.content) return false` (so a missing or empty `content` never
counts), then `.tsx` filename or a React import in the content. -/
def isReactFile (file : ChangedFile) : Bool :=
  match file.content with
  | none => false
  | some content =>
    if content.data.isEmpty then false
    else
      endsWithStr file.filename ".tsx"
        || containsStr content "import React"
        || containsStr content "from \"react\""

/-- `context.changedFiles.some(...)` of `finalizeTestProposals`. -/
def isReactContext (context : PullRequestContextWithTests) : Bool :=
  context.changedFiles.any isReactFile

/-- First `newFilename` update of the map in `finalizeTestProposals`
(lines 175-180): swap the test extension to match the React detection via
the anchored regex replaces. -/
def adjustExtension (isReact : Bool) (filename : String) : String :=
  if isReact && !endsWithStr filename ".test.tsx" then
    replaceSuffix filename ".test.ts" ".test.tsx"
  else if !isReact && !endsWithStr filename ".test.ts" then
    replaceSuffix filename ".test.tsx" ".test.ts"
  else filename

/-- Second `newFilename` update (lines 182-184): prefix `__tests__/unit/`
unless the name already contains that substring. -/
def ensureTestRoot (filename : String) : String :=
  if !containsStr filename "__tests__/unit" then
    "__tests__/unit/" ++ filename
  else filename

/-- The per-proposal normalisation (`proposals = rawProposals.map(...)`,
lines 174-185): the two sequential `newFilename` updates above. -/
def adjustProposal (isReact : Bool) (proposal : TestProposal) : TestProposal :=
  { proposal with filename := ensureTestRoot (adjustExtension isReact proposal.filename) }

/-- `proposal.filename.replace(/\.test\.tsx?$/, "")`: the greedy anchored
match strips `.test.tsx` when it is the suffix, else `.test.ts`. -/
def baseNameOf (filename : String) : String :=
  if endsWithStr filename ".test.tsx" then
    ⟨filename.data.take (filename.data.length - 9)⟩
  else if endsWithStr filename ".test.ts" then
    ⟨filename.data.take (filename.data.length - 8)⟩
  else filename

/-- State of the deduplication loop: the `seenBases` map (as an association
list in insertion order) and the `filtered` output array. -/
def dedupStep (state : List (String × TestProposal) × List TestProposal)
    (proposal : TestProposal) : List (String × TestProposal) × List TestProposal :=
  let seenBases := state.1
  let filtered := state.2
  let baseName := baseNameOf proposal.filename
  match seenBases.lookup baseName with
  | none => (seenBases ++ [(baseName, proposal)], filtered ++ [proposal])
  | some existing =>
    let oldIsTsx := endsWithStr existing.filename ".test.tsx"
    let newIsTsx := endsWithStr proposal.filename ".test.tsx"
    if newIsTsx && !oldIsTsx then
      (seenBases.map (fun kv => if kv.1 = baseName then (baseName, proposal) else kv),
        filtered.erase existing ++ [proposal])
    else
      (seenBases, filtered)

/-- `finalizeTestProposals` (`test-proposals.ts`, lines 160-213): normalise
every raw proposal, then deduplicate by base name, preferring `.test.tsx`. -/
def finalizeTestProposals (rawProposals : List TestProposal)
    (context : PullRequestContextWithTests) : List TestProposal :=
  let isReact := isReactContext context
  let proposals := rawProposals.map (adjustProposal isReact)
  (proposals.foldl dedupStep ([], [])).2

/-! ### Test Repairer (`src/lib/agents/test-fix-proposals.ts`, `test-fix.ts`) -/

/-- `generateTestFixProposals`, as a function of the `generateObject`
outcome: the validated `testProposals` array is returned verbatim — unlike
the Test Generator, no `finalizeTestProposals` post-processing is applied —
and any thrown error yields the empty list. -/
def generateTestFixProposals (llmResult : Except Unit (List TestProposal)) : List TestProposal :=
  match llmResult with
  | .ok proposals => proposals
  | .error _ => []

/-- The test files `handleTestFix` (`test-fix.ts`, lines 31-68) writes to
disk during one fix attempt: exactly the proposals returned by
`generateTestFixProposals` (passed to `commitTestsLocally` when non-empty). -/
def handleTestFixWrites (llmResult : Except Unit (List TestProposal)) : List TestProposal :=
  generateTestFixProposals llmResult

/-! ### Partial PR context (`src/lib/agents/partial-pr-context.ts`) -/

/-- Second capture group of a match of the regex `/a\/(\S+)\s+b\/(\S+)/`
starting at the head of the list: after `b/`, the maximal non-space run.
(The greedy `\S+` and `\s+` admit no alternative split, so no further
backtracking arises.) -/
def matchTailB : List Char → Option (List Char)
  | 'b' :: '/' :: rest =>
    let g2 := rest.takeWhile (fun c => !isSpaceChar c)
    if g2.isEmpty then none else some g2
  | _ => none

/-- Attempt to match `/a\/(\S+)\s+b\/(\S+)/` at the head of the list,
returning the second capture group. -/
def matchABHere : List Char → Option (List Char)
  | 'a' :: '/' :: rest =>
    let g1 := rest.takeWhile (fun c => !isSpaceChar c)
    if g1.isEmpty then none
    else
      let rest1 := rest.drop g1.length
      let ws := rest1.takeWhile isSpaceChar
      if ws.isEmpty then none
      else matchTailB (rest1.drop ws.length)
  | _ => none

/-- `exec` of the regex `/a\/(\S+)\s+b\/(\S+)/` on a line: the leftmost
match wins; `none` when the line has no match. -/
def execABRegex : List Char → Option (List Char)
  | [] => none
  | c :: rest =>
    match matchABHere (c :: rest) with
    | some g2 => some g2
    | none => execABRegex rest

/-- `parseDiffToChangedFiles` (`partial-pr-context.ts`, lines 85-108): split
the diff text on `"diff --git "`, skip whitespace-only segments, and for
each remaining segment extract the post-image path from the first line via
the regex, falling back to `"unknown.file"`. -/
def parseDiffToChangedFiles (diffText : String) : List ChangedFile :=
  (splitOnSep "diff --git ".data diffText.data).filterMap (fun seg =>
    if seg.all isSpaceChar then none
    else
      let firstLine := ((splitOnSep ['\n'] seg).headD [])
      let patch : String := ⟨"diff --git ".data ++ seg⟩
      let filename : String :=
        match execABRegex firstLine with
        | some g2 => ⟨g2⟩
        | none => "unknown.file"
      some { filename := filename, patch := patch, status := "", additions := 0,
             deletions := 0, content := none, excluded := false })

/-- Outcomes of the two git invocations made by `compareCommitsForPR`. -/
structure GitPartialEnv where
  lastCommitMessageResult : Except Unit String
  headHasParent : Bool
  headDiff : String

/-- The sentinel assigned to `patchOutput` when `git diff HEAD~1 HEAD`
throws (HEAD has no parent). -/
def noPatchSentinel : String := "No patch found (possibly first commit?)"

/-- `compareCommitsForPR` (`partial-pr-context.ts`, lines 31-73) as a
function of the git outcomes: build the partial context from the last
commit's patch, falling back to `noPatchSentinel` when HEAD has no parent. -/
def compareCommitsForPR (owner repo : String) (pullNumber : Nat)
    (git : GitPartialEnv) : PullRequestContext :=
  let lastCommitMessage :=
    match git.lastCommitMessageResult with
    | .ok m => m
    | .error _ => "Unknown commit message"
  let patchOutput := if git.headHasParent then git.headDiff else noPatchSentinel
  let changedFiles := parseDiffToChangedFiles patchOutput
  { owner := owner, repo := repo, pullNumber := pullNumber,
    headRef := "unknown", baseRef := "unknown",
    title := "Latest commit partial: (Local Diff)",
    changedFiles := changedFiles,
    commitMessages := [lastCommitMessage] }

/-! ### Code Reviewer (`src/lib/agents/code-review.ts`) -/

/-- The fallback analysis of `generateReview`'s `catch` branch. -/
def reviewFallback : ReviewAnalysis where
  summary := "Review parse error"
  fileAnalyses := []
  overallSuggestions := []

/-- `generateReview`, as a function of the context and of the
`generateObject` outcome.  The function is total — the `try`/`catch`
swallows every LLM or schema-validation error — and the context influences
only the prompt, never the shape of the result. -/
def generateReview (context : PullRequestContext)
    (llmResult : Except Unit ReviewAnalysis) : ReviewAnalysis :=
  match context, llmResult with
  | _, .ok analysis => analysis
  | _, .error _ => reviewFallback

/-! ### Test Runner (`src/lib/agents/test-runner.ts`) -/

/-- Outcome of the `execSync("npm run test")` child process: exit code and
the two captured output streams, plus the `message` of the error object
thrown on non-zero exit. -/
structure ExecOutcome where
  exitCode : Nat
  stdout : String
  stderr : String
  message : String
deriving DecidableEq

/-- The record returned by `runLocalTests`. -/
structure TestRunResult where
  jestFailed : Bool
  output : String
deriving DecidableEq

/-- `runLocalTests` (`test-runner.ts`, lines 24-47).  `execSync` returns the
captured standard output on exit code `0` and throws an error carrying
`stdout`, `stderr` and `message` otherwise; the `catch` branch rebuilds
`output` from those fields exactly as the source does (`||` and
`if (err.stderr)` treat the empty string as falsy). -/
def runLocalTests (run : ExecOutcome) : TestRunResult :=
  if run.exitCode = 0 then
    { jestFailed := false, output := run.stdout }
  else
    let output := run.stdout
    let output := if run.stderr.data.isEmpty then output else output ++ "\n" ++ run.stderr
    let output :=
      if output.data.isEmpty then
        if run.message.data.isEmpty then "Unknown error" else run.message
      else output
    { jestFailed := true, output := output }

/-! ### Final-flow test-repair loop (`src/lib/agents/pr-step-flow.ts`) -/

/-- `const maxIterations = 3` of `runFlowOnPR` (and of `runFlow` in
`flow-runner.ts`). -/
def maxIterations : Nat := 3

/-- The `while (testResult.jestFailed && iteration < maxIterations)` loop of
`runFlowOnPR` (lines 87-102).  `failedOf n` abstracts the `jestFailed`
outcome of the `(n+1)`-th `runLocalTests` call.  The fuel is
`maxIterations - iteration`, so it never runs out while the guard holds;
the result is the final `(iteration, testResult.jestFailed)` pair. -/
def fixLoop (failedOf : Nat → Bool) : Nat → Nat → Bool → Nat × Bool
  | 0, iteration, curFailed => (iteration, curFailed)
  | fuel + 1, iteration, curFailed =>
    if curFailed && decide (iteration < maxIterations) then
      fixLoop failedOf fuel (iteration + 1) (failedOf (iteration + 1))
    else (iteration, curFailed)

/-- Steps 7-8 of `runFlowOnPR`: run the tests once, then the bounded fix
loop. -/
def runTestFixPhase (failedOf : Nat → Bool) : Nat × Bool :=
  fixLoop failedOf maxIterations 0 (failedOf 0)

/-- The fragment appended to the test comment on success (step 9). -/
def successMessage : String := "\n\n✅ All tests passing after AI generation/fixes!"

/-- The fragment appended on budget exhaustion (step 9):
`"\n\n❌ Tests failing after " + maxIterations + " fix attempts."`. -/
def failureMessage : String :=
  "\n\n❌ Tests failing after " ++ toString maxIterations ++ " fix attempts."

/-- Step 9 of `runFlowOnPR`: the boolean the flow returns, together with the
final fragment appended to the test comment. -/
def runFlowOnPRResult (failedOf : Nat → Bool) : Bool × String :=
  let r := runTestFixPhase failedOf
  if !r.2 then (true, successMessage) else (false, failureMessage)

/-! ### Orchestrator (`src/scripts/master-flow.ts`, first revision)

The observable effects of `main` are modelled as a trace.  `commitChanges`
(`text-to-feature.ts`, lines 185-228) runs `git add .` then
`git commit -m`; when the step's change list is empty, nothing is staged,
`git commit` exits non-zero, `execSync` throws, `commitChanges` rethrows and
`main().catch` exits with code 1 — this is the only git failure the model
represents, all other git calls are modelled as succeeding. -/

/-- Externally observable side effects of the orchestrator. -/
inductive Effect where
  | commitPushed (message : String)
  | pullRequestEnsured
  | stepReviewRun (index : Nat)
  | finalReviewRun
deriving DecidableEq

/-- Effect trace and process exit code of one orchestrator run. -/
structure RunOutcome where
  effects : List Effect
  exitCode : Nat
deriving DecidableEq

/-- The loop over `steps[1..]` of `main` (lines 119-139): generate changes,
commit (throwing when nothing is staged), run the step flow, abort on
failure; after the loop, the final full review decides the exit code. -/
def stepLoop (changesForStep : Nat → List FileChange) (flowResult : Nat → Bool)
    (finalFlowSuccess : Bool) : Nat → List Step → List Effect → RunOutcome
  | _, [], effects =>
    let effects := effects ++ [Effect.finalReviewRun]
    if finalFlowSuccess then ⟨effects, 0⟩ else ⟨effects, 1⟩
  | i, step :: rest, effects =>
    let cs := changesForStep i
    if cs.isEmpty then ⟨effects, 1⟩
    else
      let effects := effects ++
        [Effect.commitPushed ("Step " ++ toString (i + 1) ++ ": " ++ step.stepName),
          Effect.stepReviewRun i]
      if flowResult i then
        stepLoop changesForStep flowResult finalFlowSuccess (i + 1) rest effects
      else ⟨effects, 1⟩

/-- `main` of `master-flow.ts` (lines 72-147) as a function of the external
outcomes: the planner LLM result, the change list the File-Change Generator
yields for each step index, each step flow's verdict, and the final review
verdict.  The only terminal planner check is `if (!steps.length)`. -/
def masterFlowRun (plannerLLM : Except Unit (List Step))
    (changesForStep : Nat → List FileChange) (flowResult : Nat → Bool)
    (finalFlowSuccess : Bool) : RunOutcome :=
  let steps := runPlanner plannerLLM
  match steps with
  | [] => ⟨[], 0⟩
  | firstStep :: rest =>
    let firstChanges := changesForStep 0
    if firstChanges.isEmpty then ⟨[], 1⟩
    else
      let effects := [Effect.commitPushed ("Step 1: " ++ firstStep.stepName),
        Effect.pullRequestEnsured, Effect.stepReviewRun 0]
      if flowResult 0 then
        stepLoop changesForStep flowResult finalFlowSuccess 1 rest effects
      else ⟨effects, 1⟩

/-! ### Lemmas about the string helpers -/

lemma data_append (a b : String) : (a ++ b).data = a.data ++ b.data := rfl

lemma containsSub_of_isPrefixOf {sub m : List Char} (h : sub.isPrefixOf m = true) :
    containsSub sub m = true := by
  cases m with
  | nil =>
    rw [List.isPrefixOf_iff_prefix] at h
    simp [containsSub, List.prefix_nil.mp h]
  | cons c rest => simp [containsSub, h]

lemma containsSub_prefix (l t : List Char) : containsSub l (l ++ t) = true := by
  apply containsSub_of_isPrefixOf
  rw [List.isPrefixOf_iff_prefix]
  exact List.prefix_append l t

lemma containsSub_suffix (l t : List Char) : containsSub l (t ++ l) = true := by
  induction t with
  | nil => simpa using containsSub_prefix l []
  | cons c t ih => simp [containsSub, ih]

lemma getLast?_of_suffix {sfx m : List Char} (h : sfx <:+ m) (hne : sfx ≠ []) :
    m.getLast? = sfx.getLast? := by
  obtain ⟨t, rfl⟩ := h
  rw [List.getLast?_append]
  cases hl : sfx.getLast? with
  | none => exact absurd (List.getLast?_eq_none_iff.mp hl) hne
  | some a => rfl

lemma not_endsWith_ts_of_endsWith_tsx {s : String}
    (h : endsWithStr s ".test.tsx" = true) : endsWithStr s ".test.ts" = false := by
  unfold endsWithStr at h ⊢
  rw [List.isSuffixOf_iff_suffix] at h
  by_contra hc
  rw [Bool.not_eq_false, List.isSuffixOf_iff_suffix] at hc
  have h1 := getLast?_of_suffix h (by decide)
  have h2 := getLast?_of_suffix hc (by decide)
  rw [h1] at h2
  have h3 : (".test.tsx" : String).data.getLast? = some 'x' := by decide
  have h4 : (".test.ts" : String).data.getLast? = some 's' := by decide
  rw [h3, h4] at h2
  simp at h2

lemma not_endsWith_tsx_of_endsWith_ts {s : String}
    (h : endsWithStr s ".test.ts" = true) : endsWithStr s ".test.tsx" = false := by
  unfold endsWithStr at h ⊢
  rw [List.isSuffixOf_iff_suffix] at h
  by_contra hc
  rw [Bool.not_eq_false, List.isSuffixOf_iff_suffix] at hc
  have h1 := getLast?_of_suffix hc (by decide)
  have h2 := getLast?_of_suffix h (by decide)
  rw [h1] at h2
  have h3 : (".test.tsx" : String).data.getLast? = some 'x' := by decide
  have h4 : (".test.ts" : String).data.getLast? = some 's' := by decide
  rw [h3, h4] at h2
  simp at h2

lemma suffix_append_split {sfx l m : List Char} (h : sfx <:+ l ++ m) :
    sfx <:+ m ∨ ∃ u, u ≠ [] ∧ u <:+ l ∧ sfx = u ++ m := by
  obtain ⟨t, ht⟩ := h
  by_cases hlen : l.length ≤ t.length
  · left
    have hd := congrArg (List.drop l.length) ht
    rw [List.drop_left] at hd
    rw [List.drop_append_eq_append_drop, Nat.sub_eq_zero_of_le hlen, List.drop_zero] at hd
    exact ⟨t.drop l.length, hd⟩
  · right
    push_neg at hlen
    refine ⟨l.drop t.length, ?_, List.drop_suffix _ _, ?_⟩
    · intro hnil
      rw [List.drop_eq_nil_iff] at hnil
      omega
    · have hd := congrArg (List.drop t.length) ht
      rw [List.drop_left] at hd
      rw [List.drop_append_eq_append_drop, Nat.sub_eq_zero_of_le (le_of_lt hlen),
        List.drop_zero] at hd
      exact hd

lemma suffix_append_no_slash {sfx l m : List Char} (h : sfx <:+ l ++ m)
    (hl : l.getLast? = some '/') (hn : '/' ∉ sfx) : sfx <:+ m := by
  rcases suffix_append_split h with h' | ⟨u, hu, hul, rfl⟩
  · exact h'
  · exfalso
    have hlast := getLast?_of_suffix hul hu
    rw [hl] at hlast
    have hmem : '/' ∈ u := List.mem_of_mem_getLast? hlast.symm
    exact hn (List.mem_append.mpr (Or.inl hmem))

/-! ### Accumulated-changes ledger: lemmas and claim C3 -/

/-- A prior ledger entry survives the updates in `h` iff no change in `h`
touches its path. -/
def survives (h : List FileChange) (a : FileChange) : Bool :=
  h.all (fun c => a.file != c.file)

lemma foldl_applyChange_eq (h : List FileChange) :
    ∀ acc, h.foldl applyChange acc = acc.filter (survives h) ++ keepLast h := by
  induction h with
  | nil =>
    intro acc
    have h1 : acc.filter (survives []) = acc := by
      rw [List.filter_eq_self]
      intro a _
      rfl
    simp [keepLast, h1]
  | cons c t ih =>
    intro acc
    rw [List.foldl_cons, ih]
    rw [show applyChange acc c = acc.filter (fun a => a.file != c.file) ++ [c] from rfl]
    rw [List.filter_append, List.filter_filter]
    have hfil : acc.filter (fun a => survives t a && (a.file != c.file))
        = acc.filter (survives (c :: t)) := by
      apply List.filter_congr
      intro a _
      simp [survives, List.all_cons, Bool.and_comm]
    rw [hfil, List.append_assoc]
    congr 1
    by_cases hc : ∃ d ∈ t, c.file = d.file
    · have h1 : survives t c = false := by
        obtain ⟨d, hd, he⟩ := hc
        simp [survives, List.all_eq_true]
        exact ⟨d, hd, he⟩
      have h2 : t.any (fun d => d.file == c.file) = true := by
        obtain ⟨d, hd, he⟩ := hc
        simp [List.any_eq_true]
        exact ⟨d, hd, he.symm⟩
      simp [keepLast, h1, h2]
    · push_neg at hc
      have h1 : survives t c = true := by
        simp [survives, List.all_eq_true]
        exact hc
      have h2 : t.any (fun d => d.file == c.file) = false := by
        rw [Bool.eq_false_iff]
        intro hany
        rw [List.any_eq_true] at hany
        obtain ⟨d, hd, he⟩ := hany
        rw [beq_iff_eq] at he
        exact hc d hd he.symm
      simp [keepLast, h1, h2]

lemma keepLast_subset {e : FileChange} : ∀ {h : List FileChange}, e ∈ keepLast h → e ∈ h := by
  intro h
  induction h with
  | nil => simp [keepLast]
  | cons c t ih =>
    intro hm
    by_cases hc : t.any (fun d => d.file == c.file) <;> simp [keepLast, hc] at hm
    · exact List.mem_cons_of_mem c (ih hm)
    · rcases hm with rfl | hm
      · exact List.mem_cons_self _ _
      · exact List.mem_cons_of_mem c (ih hm)

lemma keepLast_files_nodup : ∀ (h : List FileChange), ((keepLast h).map (fun e => e.file)).Nodup := by
  intro h
  induction h with
  | nil => simp [keepLast]
  | cons c t ih =>
    by_cases hc : t.any (fun d => d.file == c.file) <;> simp [keepLast, hc]
    · exact ih
    · refine ⟨?_, ih⟩
      intro e he hfile
      have hmem := keepLast_subset he
      rw [List.any_eq_true] at hc
      exact hc ⟨e, hmem, by simp [hfile]⟩

lemma keepLast_most_recent {e : FileChange} :
    ∀ {h : List FileChange}, e ∈ keepLast h →
      h.reverse.find? (fun c => c.file == e.file) = some e := by
  intro h
  induction h with
  | nil => simp [keepLast]
  | cons c t ih =>
    intro hm
    rw [List.reverse_cons, List.find?_append]
    by_cases hc : t.any (fun d => d.file == c.file) <;> simp [keepLast, hc] at hm
    · rw [ih hm]
      rfl
    · rcases hm with rfl | hm
      · have hnone : t.reverse.find? (fun c' => c'.file == e.file) = none := by
          rw [List.find?_eq_none]
          intro d hd
          rw [List.any_eq_true] at hc
          simp only [Bool.not_eq_true]
          by_contra hb
          rw [Bool.not_eq_false, beq_iff_eq] at hb
          exact hc ⟨d, List.mem_reverse.mp hd, by simp [hb]⟩
        rw [hnone]
        simp [List.find?]
      · rw [ih hm]
        rfl

lemma keepLast_covers :
    ∀ (h : List FileChange), ∀ c ∈ h, ∃ e ∈ keepLast h, e.file = c.file := by
  intro h
  induction h with
  | nil => simp
  | cons c' t ih =>
    intro c hm
    rcases List.mem_cons.mp hm with he | hm
    · subst he
      by_cases hc : t.any (fun d => d.file == c.file) = true
      · have hany := hc
        rw [List.any_eq_true] at hany
        obtain ⟨d, hd, hde⟩ := hany
        rw [beq_iff_eq] at hde
        obtain ⟨e, hke, hef⟩ := ih d hd
        refine ⟨e, ?_, by rw [hef, hde]⟩
        simp [keepLast, hc]
        exact hke
      · rw [Bool.not_eq_true] at hc
        exact ⟨c, by simp [keepLast, hc], rfl⟩
    · obtain ⟨e, hke, hef⟩ := ih c hm
      refine ⟨e, ?_, hef⟩
      by_cases hc : t.any (fun d => d.file == c'.file) <;> simp [keepLast, hc]
      · exact hke
      · exact Or.inr hke

lemma updateAccumulated_eq (acc cs : List FileChange) :
    updateAccumulated acc cs = acc.filter (survives cs) ++ keepLast cs :=
  foldl_applyChange_eq cs acc

lemma updateAccumulated_nodup {acc : List FileChange} (cs : List FileChange)
    (h : (acc.map (fun e => e.file)).Nodup) :
    ((updateAccumulated acc cs).map (fun e => e.file)).Nodup := by
  rw [updateAccumulated_eq, List.map_append, List.nodup_append]
  refine ⟨(List.Sublist.map _ (List.filter_sublist acc)).nodup h, keepLast_files_nodup cs, ?_⟩
  intro x hx hy
  obtain ⟨a, ha, rfl⟩ := List.mem_map.mp hx
  obtain ⟨e, he, hef⟩ := List.mem_map.mp hy
  have hs := List.of_mem_filter ha
  unfold survives at hs
  rw [List.all_eq_true] at hs
  have := hs e (keepLast_subset he)
  rw [bne_iff_ne] at this
  exact this hef.symm

lemma runLedger_eq_keepLast (stepChanges : List (List FileChange)) :
    runLedger stepChanges = keepLast stepChanges.flatten := by
  unfold runLedger updateAccumulated
  rw [← List.foldl_flatten]
  rw [foldl_applyChange_eq]
  simp

/-- Claim C3.  At every point during a run the accumulated-changes ledger
has at most one entry per file path, that entry equals the most recent
`FileChange` emitted for the path, and the ledger is exactly the sequence of
each path's last-touch change in order of last touch (`keepLast` of the
flattened history); moreover the per-step filter-then-push update preserves
path-uniqueness from any ledger state. -/
theorem accumulated_changes_invariant (stepChanges : List (List FileChange)) :
    runLedger stepChanges = keepLast stepChanges.flatten
    ∧ ((runLedger stepChanges).map (fun e => e.file)).Nodup
    ∧ (∀ e ∈ runLedger stepChanges,
        stepChanges.flatten.reverse.find? (fun c => c.file == e.file) = some e)
    ∧ (∀ c ∈ stepChanges.flatten, ∃ e ∈ runLedger stepChanges, e.file = c.file)
    ∧ (∀ acc cs, (acc.map (fun e => e.file)).Nodup →
        ((updateAccumulated acc cs).map (fun e => e.file)).Nodup) := by
  refine ⟨runLedger_eq_keepLast stepChanges, ?_, ?_, ?_, ?_⟩
  · rw [runLedger_eq_keepLast]
    exact keepLast_files_nodup _
  · intro e he
    rw [runLedger_eq_keepLast] at he
    exact keepLast_most_recent he
  · intro c hc
    rw [runLedger_eq_keepLast]
    exact keepLast_covers _ c hc
  · intro acc cs h
    exact updateAccumulated_nodup cs h

/-- Witness for C3 at a concrete run: two steps, the second overwriting one
of the first step's two paths. -/
theorem accumulated_changes_invariant_witness :
    runLedger [[⟨"a.ts", "v1"⟩, ⟨"b.ts", "v1"⟩], [⟨"a.ts", "v2"⟩]]
      = [⟨"b.ts", "v1"⟩, ⟨"a.ts", "v2"⟩]
    ∧ ((updateAccumulated [] []).map (fun e => e.file)).Nodup := by
  constructor
  · decide
  · exact (accumulated_changes_invariant [[⟨"a.ts", "v1"⟩, ⟨"b.ts", "v1"⟩],
      [⟨"a.ts", "v2"⟩]]).2.2.2.2 [] [] (by decide)

/-! ### Test-repair loop: lemmas and claim C4 -/

lemma fixLoop_spec (failedOf : Nat → Bool) :
    ∀ fuel iteration curFailed, fuel + iteration = maxIterations →
      iteration ≤ (fixLoop failedOf fuel iteration curFailed).1
      ∧ (fixLoop failedOf fuel iteration curFailed).1 ≤ maxIterations
      ∧ (curFailed = failedOf iteration →
          (fixLoop failedOf fuel iteration curFailed).2
            = failedOf (fixLoop failedOf fuel iteration curFailed).1)
      ∧ ((fixLoop failedOf fuel iteration curFailed).2 = true →
          (fixLoop failedOf fuel iteration curFailed).1 = maxIterations) := by
  intro fuel
  induction fuel with
  | zero =>
    intro iteration curFailed hinv
    have hit : iteration = maxIterations := by omega
    refine ⟨le_refl _, by rw [fixLoop]; omega, ?_, ?_⟩
    · intro hcur
      rw [fixLoop]
      exact hcur
    · intro _
      rw [fixLoop]
      exact hit
  | succ fuel ih =>
    intro iteration curFailed hinv
    have hlt : iteration < maxIterations := by omega
    cases curFailed with
    | false =>
      have heq : fixLoop failedOf (fuel + 1) iteration false = (iteration, false) := by
        rw [fixLoop]
        simp
      rw [heq]
      exact ⟨le_refl _, by omega, fun hc => hc, fun hc => by simp at hc⟩
    | true =>
      have heq : fixLoop failedOf (fuel + 1) iteration true
          = fixLoop failedOf fuel (iteration + 1) (failedOf (iteration + 1)) := by
        rw [fixLoop,
          if_pos (show (true && decide (iteration < maxIterations)) = true by simp [hlt])]
      obtain ⟨h1, h2, h3, h4⟩ := ih (iteration + 1) (failedOf (iteration + 1)) (by omega)
      rw [heq]
      exact ⟨by omega, h2, fun _ => h3 rfl, h4⟩

/-- Claim C4.  The test-repair loop of `runFlowOnPR` performs at most
`maxIterations = 3` repair iterations and terminates (it is a total Lean
function); on termination the recorded verdict is the outcome of the last
test run, and either that run passed — the flow appends the success fragment
and returns `true` — or exactly 3 iterations were used and the flow appends
the budget-exhausted fragment, which contains "Tests failing after 3 fix
attempts.", and returns `false`. -/
theorem test_repair_loop_bounded (failedOf : Nat → Bool) :
    (runTestFixPhase failedOf).1 ≤ maxIterations
    ∧ (runTestFixPhase failedOf).2 = failedOf (runTestFixPhase failedOf).1
    ∧ ((runTestFixPhase failedOf).2 = false →
        runFlowOnPRResult failedOf = (true, successMessage))
    ∧ ((runTestFixPhase failedOf).2 = true →
        (runTestFixPhase failedOf).1 = maxIterations
        ∧ runFlowOnPRResult failedOf = (false, failureMessage))
    ∧ containsStr failureMessage "Tests failing after 3 fix attempts." = true := by
  obtain ⟨h1, h2, h3, h4⟩ :=
    fixLoop_spec failedOf maxIterations 0 (failedOf 0) (by omega)
  refine ⟨h2, h3 rfl, ?_, ?_, by decide⟩
  · intro hf
    simp [runFlowOnPRResult, hf]
  · intro hf
    refine ⟨h4 hf, ?_⟩
    simp [runFlowOnPRResult, hf]

/-- Witness for C4: with every test run failing, the loop uses exactly 3
iterations and the flow reports the budget-exhausted failure. -/
theorem test_repair_loop_bounded_witness :
    runTestFixPhase (fun _ => true) = (3, true)
    ∧ runFlowOnPRResult (fun _ => true) = (false, failureMessage) :=
  ⟨by decide, ((test_repair_loop_bounded (fun _ => true)).2.2.2.1 (by decide)).2⟩

/-! ### Shared concrete inputs for the evaluation theorems -/

/-- A markup-bearing context: one changed `.tsx` file with a React import. -/
def ctxReact : PullRequestContextWithTests where
  owner := "owner"
  repo := "repo"
  pullNumber := 7
  headRef := "agent/20250101_1200"
  baseRef := "main"
  title := "Agent: add a page"
  changedFiles := [{ filename := "app/contact/page.tsx",
                     patch := "diff --git a/x b/x",
                     status := "", additions := 1, deletions := 0,
                     content := some "import React from 'react'", excluded := false }]
  commitMessages := ["Step 1: Add contact page"]
  existingTestFiles := []

/-! ### Claim C8: the Code Reviewer never throws -/

/-- Claim C8.  `generateReview` is a total function of the context and the
LLM outcome (the `try`/`catch` swallows every failure, so it never throws);
on LLM or schema-validation failure it returns the fallback analysis, whose
summary is "Review parse error" and whose two lists are empty, and on
success it returns the validated analysis unchanged. -/
theorem code_reviewer_never_throws (context : PullRequestContext)
    (llmResult : Except Unit ReviewAnalysis) :
    (llmResult = .error () → generateReview context llmResult = reviewFallback)
    ∧ (∀ analysis, llmResult = .ok analysis → generateReview context llmResult = analysis)
    ∧ reviewFallback.summary = "Review parse error"
    ∧ reviewFallback.fileAnalyses = []
    ∧ reviewFallback.overallSuggestions = [] := by
  refine ⟨?_, ?_, rfl, rfl, rfl⟩
  · rintro rfl
    rfl
  · rintro analysis rfl
    rfl

/-- Witness for C8 at a concrete context and a failing LLM call. -/
theorem code_reviewer_never_throws_witness :
    generateReview ctxReact.toPullRequestContext (.error ()) = reviewFallback :=
  (code_reviewer_never_throws ctxReact.toPullRequestContext (.error ())).1 rfl

/-! ### Claim C9: the Test Runner -/

lemma containsSub_nil (l : List Char) : containsSub [] l = true := by
  cases l <;> rfl

lemma containsSub_self (l : List Char) : containsSub l l = true := by
  simpa using containsSub_prefix l []

/-- Counterexample to C9 as stated: on a run that exits `0` but writes to
standard error, the returned output is the captured standard output alone
and does not contain the standard-error text, although the claim requires
the output to capture both streams for every outcome. -/
theorem test_runner_stderr_lost :
    runLocalTests ⟨0, "ok", "warning: deprecated", ""⟩ = ⟨false, "ok"⟩
    ∧ containsStr (runLocalTests ⟨0, "ok", "warning: deprecated", ""⟩).output
        "warning: deprecated" = false := by
  constructor
  · rfl
  · decide

/-- Claim C9, amended.  `runLocalTests` is total (never throws), `jestFailed`
is `true` exactly when the test command exits non-zero, and the output
captures both streams when the command fails; when it succeeds the output is
the captured standard output only (standard error is dropped). -/
theorem test_runner_amended (run : ExecOutcome) :
    (runLocalTests run).jestFailed = decide (run.exitCode ≠ 0)
    ∧ (run.exitCode = 0 → (runLocalTests run).output = run.stdout)
    ∧ (run.exitCode ≠ 0 →
        containsSub run.stdout.data (runLocalTests run).output.data = true
        ∧ containsSub run.stderr.data (runLocalTests run).output.data = true) := by
  by_cases h : run.exitCode = 0
  · refine ⟨by simp [runLocalTests, h], fun _ => by simp [runLocalTests, h],
      fun hne => absurd h hne⟩
  · refine ⟨by simp [runLocalTests, h], fun he => absurd he h, fun _ => ?_⟩
    by_cases hs : run.stderr.data.isEmpty
    · by_cases ho : run.stdout.data.isEmpty
      · have h1 : run.stdout.data = [] := List.isEmpty_iff.mp ho
        have h2 : run.stderr.data = [] := List.isEmpty_iff.mp hs
        rw [h1, h2]
        exact ⟨containsSub_nil _, containsSub_nil _⟩
      · have h2 : run.stderr.data = [] := List.isEmpty_iff.mp hs
        have hout : (runLocalTests run).output = run.stdout := by
          simp [runLocalTests, h, hs, ho]
        rw [hout, h2]
        exact ⟨containsSub_self _, containsSub_nil _⟩
    · have hout : (runLocalTests run).output = run.stdout ++ "\n" ++ run.stderr := by
        have hne2 : ((run.stdout ++ "\n" ++ run.stderr).data).isEmpty = false := by
          rw [data_append, data_append]
          simp
        simp only [runLocalTests, if_neg h, hs, Bool.false_eq_true, if_false, hne2]
      rw [hout, data_append, data_append]
      constructor
      · rw [List.append_assoc]
        exact containsSub_prefix _ _
      · exact containsSub_suffix _ _

/-- Witness for C9 (amended) on a failing run with both streams non-empty. -/
theorem test_runner_amended_witness :
    (runLocalTests ⟨1, "out", "err", ""⟩).jestFailed = true
    ∧ containsSub "err".data (runLocalTests ⟨1, "out", "err", ""⟩).output.data = true :=
  ⟨by decide, ((test_runner_amended ⟨1, "out", "err", ""⟩).2.2 (by decide)).2⟩

/-! ### Claim C7: partial context when HEAD has no parent -/

/-- Claim C7 is violated by the code: when HEAD has no parent the diff
fallback is the sentinel text, but `parseDiffToChangedFiles` treats that
sentinel as a diff segment and emits one spurious changed-file entry named
`unknown.file` — the changed-files list is not empty as the claim requires. -/
theorem no_parent_spurious_file :
    (compareCommitsForPR "owner" "repo" 7 ⟨.ok "Initial commit", false, ""⟩).changedFiles
      = [{ filename := "unknown.file",
           patch := "diff --git No patch found (possibly first commit?)",
           status := "", additions := 0, deletions := 0, content := none, excluded := false }]
    ∧ (compareCommitsForPR "owner" "repo" 7 ⟨.ok "Initial commit", false, ""⟩).changedFiles ≠ [] := by
  constructor
  · decide
  · decide

/-! ### Claim C1: PlanError is not terminal for the orchestrator -/

/-- Claim C1 is half-true: the Planner does yield the single sentinel
`PlanError` step on an LLM failure, but the orchestrator's only terminal
check is `if (!steps.length)`, which the one-element sentinel plan passes —
so the run proceeds to generate changes for the sentinel step, commit, push,
create the pull request and run reviews, instead of exiting without side
effects as the claim requires. -/
theorem planner_error_not_terminal :
    runPlanner (.error ()) = [planErrorStep]
    ∧ masterFlowRun (.error ())
        (fun _ => [{ file := "app/contact/page.tsx", content := "export default " }])
        (fun _ => true) true
      = { effects := [Effect.commitPushed "Step 1: PlanError", Effect.pullRequestEnsured,
            Effect.stepReviewRun 0, Effect.finalReviewRun], exitCode := 0 }
    ∧ (masterFlowRun (.error ())
        (fun _ => [{ file := "app/contact/page.tsx", content := "export default " }])
        (fun _ => true) true).effects.contains Effect.pullRequestEnsured = true := by
  refine ⟨rfl, by decide, by decide⟩

/-! ### Claim C2: a step with an empty change list -/

/-- Claim C2 is violated by the code: the orchestrator calls `commitChanges`
unconditionally, so on a step whose File-Change Generator output is empty,
`git commit` runs with nothing staged, exits non-zero, `commitChanges`
rethrows, and the run aborts with exit code 1 — the step is not treated as
successful and the pipeline does not advance (no final review occurs). -/
theorem empty_changes_step_aborts :
    masterFlowRun (.ok [⟨"Add page", "d", "p"⟩, ⟨"Wire page", "d", "p"⟩])
        (fun i => if i == 0 then [{ file := "app/a.tsx", content := "x" }] else [])
        (fun _ => true) true
      = { effects := [Effect.commitPushed "Step 1: Add page", Effect.pullRequestEnsured,
            Effect.stepReviewRun 0], exitCode := 1 } := by
  decide

/-! ### Claim C6: the Test Repairer skips the post-processing laws -/

/-- Claim C6 is violated by the code: `generateTestFixProposals` returns the
LLM's proposals verbatim and `handleTestFix` writes them to disk unchanged,
so a fix proposal with a plain extension outside the test root is written
as-is in a markup context, where the post-processing laws would have
produced `__tests__/unit/Foo.test.tsx`. -/
theorem test_fix_writes_unprocessed :
    handleTestFixWrites (.ok [{ filename := "Foo.test.ts", testContent := "t",
                                actions := ⟨.create, ""⟩ }])
      = [{ filename := "Foo.test.ts", testContent := "t", actions := ⟨.create, ""⟩ }]
    ∧ isReactContext ctxReact = true
    ∧ containsStr "Foo.test.ts" "__tests__/unit" = false
    ∧ endsWithStr "Foo.test.ts" ".test.ts" = true
    ∧ (finalizeTestProposals [{ filename := "Foo.test.ts", testContent := "t",
                                actions := ⟨.create, ""⟩ }] ctxReact).map (fun p => p.filename)
      = ["__tests__/unit/Foo.test.tsx"] := by
  refine ⟨rfl, by decide, by decide, by decide, by decide⟩

/-! ### Pointwise lemmas on the proposal normalisation (claims C5 and C10) -/

lemma replaceSuffix_endsWith {s : String} (h : endsWithStr s ".test.ts" = true) :
    endsWithStr (replaceSuffix s ".test.ts" ".test.tsx") ".test.tsx" = true := by
  unfold endsWithStr at h ⊢
  unfold replaceSuffix
  rw [if_pos h]
  rw [List.isSuffixOf_iff_suffix]
  exact List.suffix_append _ _

lemma replaceSuffix_id {s sfx repl : String} (h : endsWithStr s sfx = false) :
    replaceSuffix s sfx repl = s := by
  unfold endsWithStr at h
  unfold replaceSuffix
  rw [if_neg (by simp [h])]

lemma adjustExtension_true_not_ts (f : String) :
    endsWithStr (adjustExtension true f) ".test.ts" = false := by
  unfold adjustExtension
  by_cases h1 : endsWithStr f ".test.tsx" = true
  · simp only [h1, Bool.not_true, Bool.and_false, Bool.false_and, if_false]
    exact not_endsWith_ts_of_endsWith_tsx h1
  · rw [Bool.not_eq_true] at h1
    simp only [h1, Bool.not_false, Bool.and_true, Bool.true_and, if_true]
    by_cases h2 : endsWithStr f ".test.ts" = true
    · exact not_endsWith_ts_of_endsWith_tsx (replaceSuffix_endsWith h2)
    · rw [Bool.not_eq_true] at h2
      rw [replaceSuffix_id h2]
      exact h2

lemma replaceSuffix_tsx_endsWith {s : String} (h : endsWithStr s ".test.tsx" = true) :
    endsWithStr (replaceSuffix s ".test.tsx" ".test.ts") ".test.ts" = true := by
  unfold endsWithStr at h ⊢
  unfold replaceSuffix
  rw [if_pos h]
  rw [List.isSuffixOf_iff_suffix]
  exact List.suffix_append _ _

lemma adjustExtension_false_not_tsx (f : String) :
    endsWithStr (adjustExtension false f) ".test.tsx" = false := by
  unfold adjustExtension
  by_cases h1 : endsWithStr f ".test.ts" = true
  · simp only [h1, Bool.false_and, Bool.not_true, Bool.not_false, Bool.true_and, if_false]
    exact not_endsWith_tsx_of_endsWith_ts h1
  · rw [Bool.not_eq_true] at h1
    simp only [h1, Bool.false_and, Bool.not_false, Bool.true_and, if_false, if_true]
    by_cases h2 : endsWithStr f ".test.tsx" = true
    · exact not_endsWith_tsx_of_endsWith_ts (replaceSuffix_tsx_endsWith h2)
    · rw [Bool.not_eq_true] at h2
      rw [replaceSuffix_id h2]
      exact h2

lemma ensureTestRoot_contains (f : String) :
    containsStr (ensureTestRoot f) "__tests__/unit" = true := by
  unfold ensureTestRoot
  by_cases hc : containsStr f "__tests__/unit" = true
  · rw [if_neg (by simp [hc])]
    exact hc
  · rw [Bool.not_eq_true] at hc
    rw [if_pos (by simp [hc])]
    unfold containsStr
    rw [data_append]
    apply containsSub_of_isPrefixOf
    rw [List.isPrefixOf_iff_prefix]
    have hsplit : ("__tests__/unit/" : String).data
        = ("__tests__/unit" : String).data ++ ['/'] := by decide
    rw [hsplit, List.append_assoc]
    exact List.prefix_append _ _

lemma endsWith_prefixed_of_no_slash {f sfx : String} (hs : '/' ∉ sfx.data)
    (h : endsWithStr f sfx = false) :
    endsWithStr ("__tests__/unit/" ++ f) sfx = false := by
  rw [Bool.eq_false_iff] at h ⊢
  intro hc
  apply h
  unfold endsWithStr at hc ⊢
  rw [List.isSuffixOf_iff_suffix] at hc ⊢
  rw [data_append] at hc
  exact suffix_append_no_slash hc (by decide) hs

lemma ensureTestRoot_no_sfx {f sfx : String} (hs : '/' ∉ sfx.data)
    (h : endsWithStr f sfx = false) :
    endsWithStr (ensureTestRoot f) sfx = false := by
  unfold ensureTestRoot
  by_cases hc : containsStr f "__tests__/unit" = true
  · rw [if_neg (by simp [hc])]
    exact h
  · rw [Bool.not_eq_true] at hc
    rw [if_pos (by simp [hc])]
    exact endsWith_prefixed_of_no_slash hs h

lemma ensureTestRoot_id {f : String} (h : containsStr f "__tests__/unit" = true) :
    ensureTestRoot f = f := by
  unfold ensureTestRoot
  rw [if_neg (by simp [h])]

lemma adjustProposal_contains (b : Bool) (p : TestProposal) :
    containsStr (adjustProposal b p).filename "__tests__/unit" = true :=
  ensureTestRoot_contains _

lemma adjustProposal_true_not_ts (p : TestProposal) :
    endsWithStr (adjustProposal true p).filename ".test.ts" = false :=
  ensureTestRoot_no_sfx (by decide) (adjustExtension_true_not_ts _)

lemma adjustProposal_false_not_tsx (p : TestProposal) :
    endsWithStr (adjustProposal false p).filename ".test.tsx" = false :=
  ensureTestRoot_no_sfx (by decide) (adjustExtension_false_not_tsx _)

lemma adjustExtension_true_id {f : String} (h : endsWithStr f ".test.ts" = false) :
    adjustExtension true f = f := by
  unfold adjustExtension
  by_cases h1 : endsWithStr f ".test.tsx" = true
  · simp [h1]
  · rw [Bool.not_eq_true] at h1
    simp only [h1, Bool.not_false, Bool.and_true, Bool.true_and, if_true]
    exact replaceSuffix_id h

lemma adjustExtension_false_id {f : String} (h : endsWithStr f ".test.tsx" = false) :
    adjustExtension false f = f := by
  unfold adjustExtension
  by_cases h1 : endsWithStr f ".test.ts" = true
  · simp [h1]
  · rw [Bool.not_eq_true] at h1
    simp only [h1, Bool.false_and, Bool.not_false, Bool.true_and, if_false, if_true]
    exact replaceSuffix_id h

lemma adjustProposal_id {isReact : Bool} {p : TestProposal}
    (hc : containsStr p.filename "__tests__/unit" = true)
    (hts : isReact = true → endsWithStr p.filename ".test.ts" = false)
    (htsx : isReact = false → endsWithStr p.filename ".test.tsx" = false) :
    adjustProposal isReact p = p := by
  cases p with
  | mk filename testContent actions =>
    unfold adjustProposal
    cases isReact with
    | true =>
      rw [show adjustExtension true filename = filename from adjustExtension_true_id (hts rfl)]
      rw [ensureTestRoot_id hc]
    | false =>
      rw [show adjustExtension false filename = filename from adjustExtension_false_id (htsx rfl)]
      rw [ensureTestRoot_id hc]

/-! ### Deduplication-loop invariant (claims C5 and C10) -/

/-- Base name of a proposal, as the deduplication loop computes it. -/
def proposalBase (p : TestProposal) : String := baseNameOf p.filename

lemma lookup_cons (q : String × TestProposal) (l : List (String × TestProposal)) (k : String) :
    (q :: l).lookup k = if k = q.1 then some q.2 else l.lookup k := by
  rcases q with ⟨k', v⟩
  by_cases h : k = k'
  · subst h
    simp [List.lookup]
  · have hb : (k == k') = false := by simp [h]
    simp [List.lookup, hb, h]

lemma lookup_append_single_of_some {seen : List (String × TestProposal)} {k : String}
    {v : TestProposal} (h : seen.lookup k = some v) (b : String) (p : TestProposal) :
    (seen ++ [(b, p)]).lookup k = some v := by
  induction seen with
  | nil => simp [List.lookup] at h
  | cons q t ih =>
    rw [List.cons_append, lookup_cons]
    rw [lookup_cons] at h
    by_cases hq : k = q.1
    · rw [if_pos hq] at h ⊢
      exact h
    · rw [if_neg hq] at h ⊢
      exact ih h

lemma lookup_append_single_of_none {seen : List (String × TestProposal)} {k : String}
    (h : seen.lookup k = none) (b : String) (p : TestProposal) :
    (seen ++ [(b, p)]).lookup k = if k = b then some p else none := by
  induction seen with
  | nil =>
    by_cases hb : k = b
    · subst hb
      simp [List.lookup]
    · have hbe : (k == b) = false := by simp [hb]
      simp [List.lookup, hbe, hb]
  | cons q t ih =>
    rw [List.cons_append, lookup_cons]
    rw [lookup_cons] at h
    by_cases hq : k = q.1
    · rw [if_pos hq] at h
      exact absurd h (by simp)
    · rw [if_neg hq] at h
      rw [if_neg hq]
      exact ih h

lemma lookup_map_overwrite (seen : List (String × TestProposal)) (b : String)
    (q : TestProposal) (k : String) :
    (seen.map (fun kv => if kv.1 = b then (b, q) else kv)).lookup k
      = if k = b then (seen.lookup b).map (fun _ => q) else seen.lookup k := by
  induction seen with
  | nil => by_cases h : k = b <;> simp [List.lookup, h]
  | cons kv t ih =>
    rcases kv with ⟨k', v⟩
    simp only [List.map_cons]
    by_cases hkvb : k' = b <;> by_cases hk : k = b
    · subst hkvb
      subst hk
      simp [lookup_cons]
    · subst hkvb
      simp [lookup_cons, hk, ih]
    · subst hk
      simp [lookup_cons, ih, hkvb, Ne.symm hkvb]
    · by_cases hkk : k = k'
      · subst hkk
        simp [lookup_cons, hkvb, hk]
      · simp [lookup_cons, hkvb, hk, hkk, ih]

/-- Invariant tying `seenBases` to `filtered` during the deduplication
loop: output base names are pairwise distinct, every map entry points at an
output element with the right base, and every output element's base is in
the map. -/
def DedupState (seen : List (String × TestProposal)) (filtered : List TestProposal) : Prop :=
  ((filtered.map proposalBase).Nodup)
  ∧ (∀ k v, seen.lookup k = some v → v ∈ filtered ∧ proposalBase v = k)
  ∧ (∀ p ∈ filtered, seen.lookup (proposalBase p) ≠ none)

lemma dedupState_nil : DedupState [] [] := by
  refine ⟨List.nodup_nil, ?_, ?_⟩
  · intro k v h
    simp [List.lookup] at h
  · intro p hp
    simp at hp

lemma dedupStep_none_eq {seen : List (String × TestProposal)} {filtered : List TestProposal}
    {p : TestProposal} (h : seen.lookup (proposalBase p) = none) :
    dedupStep (seen, filtered) p = (seen ++ [(proposalBase p, p)], filtered ++ [p]) := by
  simp only [dedupStep]
  rw [show List.lookup (baseNameOf p.filename) seen = none from h]
  rfl

lemma dedupStep_replace_eq {seen : List (String × TestProposal)} {filtered : List TestProposal}
    {p existing : TestProposal} (h : seen.lookup (proposalBase p) = some existing)
    (hp : endsWithStr p.filename ".test.tsx" = true)
    (he : endsWithStr existing.filename ".test.tsx" = false) :
    dedupStep (seen, filtered) p
      = (seen.map (fun kv => if kv.1 = proposalBase p then (proposalBase p, p) else kv),
          filtered.erase existing ++ [p]) := by
  simp only [dedupStep]
  rw [show List.lookup (baseNameOf p.filename) seen = some existing from h]
  simp [proposalBase, hp, he]

lemma dedupStep_keep_eq {seen : List (String × TestProposal)} {filtered : List TestProposal}
    {p existing : TestProposal} (h : seen.lookup (proposalBase p) = some existing)
    (hkeep : (endsWithStr p.filename ".test.tsx"
        && !endsWithStr existing.filename ".test.tsx") = false) :
    dedupStep (seen, filtered) p = (seen, filtered) := by
  simp only [dedupStep]
  rw [show List.lookup (baseNameOf p.filename) seen = some existing from h]
  simp [hkeep]

lemma base_inj {filtered : List TestProposal} (hnd : (filtered.map proposalBase).Nodup)
    {q r : TestProposal} (hq : q ∈ filtered) (hr : r ∈ filtered)
    (he : proposalBase q = proposalBase r) : q = r :=
  List.inj_on_of_nodup_map hnd hq hr he

lemma dedupStep_state {seen : List (String × TestProposal)} {filtered : List TestProposal}
    (h : DedupState seen filtered) (p : TestProposal) :
    DedupState (dedupStep (seen, filtered) p).1 (dedupStep (seen, filtered) p).2 := by
  obtain ⟨hnd, hsome, hmem⟩ := h
  cases hl : seen.lookup (proposalBase p) with
  | none =>
    rw [dedupStep_none_eq hl]
    refine ⟨?_, ?_, ?_⟩
    · rw [List.map_append, List.nodup_append]
      refine ⟨hnd, List.nodup_singleton _, ?_⟩
      intro x hx hxp
      simp only [List.map_cons, List.map_nil, List.mem_singleton] at hxp
      subst hxp
      obtain ⟨q, hq, hbq⟩ := List.mem_map.mp hx
      exact hmem q hq (by rw [hbq]; exact hl)
    · intro k v hkv
      cases hsk : seen.lookup k with
      | some w =>
        rw [lookup_append_single_of_some hsk] at hkv
        have hwv : w = v := Option.some.inj hkv
        obtain ⟨hin, hbq⟩ := hsome k w hsk
        rw [← hwv]
        exact ⟨List.mem_append_left _ hin, hbq⟩
      | none =>
        rw [lookup_append_single_of_none hsk] at hkv
        by_cases hk : k = proposalBase p
        · rw [if_pos hk] at hkv
          cases hkv
          exact ⟨List.mem_append_right _ (List.mem_singleton_self _), hk.symm⟩
        · rw [if_neg hk] at hkv
          exact absurd hkv (by simp)
    · intro q hq
      rcases List.mem_append.mp hq with hq | hq
      · have hne := hmem q hq
        cases hsk : seen.lookup (proposalBase q) with
        | none => exact absurd hsk hne
        | some w =>
          rw [lookup_append_single_of_some hsk]
          simp
      · rw [List.mem_singleton] at hq
        subst hq
        rw [lookup_append_single_of_none hl, if_pos rfl]
        simp
  | some existing =>
    obtain ⟨hexmem, hexbase⟩ := hsome _ _ hl
    by_cases hb : (endsWithStr p.filename ".test.tsx"
        && !endsWithStr existing.filename ".test.tsx") = true
    · rw [Bool.and_eq_true, Bool.not_eq_true'] at hb
      rw [dedupStep_replace_eq hl hb.1 hb.2]
      obtain ⟨l₁, l₂, hnin, hfe, her⟩ := List.exists_erase_eq hexmem
      have hnd' := hnd
      rw [hfe, List.map_append, List.map_cons, List.nodup_append, List.nodup_cons] at hnd'
      obtain ⟨h₁, ⟨hex2, h₂⟩, hdisj⟩ := hnd'
      refine ⟨?_, ?_, ?_⟩
      · rw [her, List.map_append, List.map_append, List.nodup_append]
        refine ⟨?_, List.nodup_singleton _, ?_⟩
        · rw [List.nodup_append]
          refine ⟨h₁, h₂, ?_⟩
          intro x hx1 hx2
          exact hdisj hx1 (List.mem_cons_of_mem _ hx2)
        · intro x hx hxp
          simp only [List.map_cons, List.map_nil, List.mem_singleton] at hxp
          subst hxp
          have hbp : proposalBase p = proposalBase existing := hexbase.symm
          rcases List.mem_append.mp hx with hx | hx
          · exact hdisj hx (by rw [hbp]; exact List.mem_cons_self _ _)
          · exact hex2 (by rw [← hbp]; exact hx)
      · intro k v hkv
        rw [lookup_map_overwrite] at hkv
        by_cases hk : k = proposalBase p
        · rw [if_pos hk, hl] at hkv
          cases hkv
          exact ⟨List.mem_append_right _ (List.mem_singleton_self _), hk.symm⟩
        · rw [if_neg hk] at hkv
          obtain ⟨hin, hbk⟩ := hsome k v hkv
          have hvne : v ≠ existing := by
            intro he
            apply hk
            rw [← hbk, he, hexbase]
          exact ⟨List.mem_append_left _ ((List.mem_erase_of_ne hvne).mpr hin), hbk⟩
      · intro q hq
        rcases List.mem_append.mp hq with hq | hq
        · have hqf := List.mem_of_mem_erase hq
          have hne := hmem q hqf
          rw [lookup_map_overwrite]
          by_cases hk : proposalBase q = proposalBase p
          · rw [if_pos hk, hl]
            simp
          · rw [if_neg hk]
            exact hne
        · rw [List.mem_singleton] at hq
          subst hq
          rw [lookup_map_overwrite, if_pos rfl, hl]
          simp
    · rw [dedupStep_keep_eq hl (Bool.eq_false_iff.mpr hb)]
      exact ⟨hnd, hsome, hmem⟩

lemma dedupStep_mem {seen : List (String × TestProposal)} {filtered : List TestProposal}
    {p q : TestProposal} (hq : q ∈ (dedupStep (seen, filtered) p).2) :
    q ∈ filtered ∨ q = p := by
  cases hl : seen.lookup (proposalBase p) with
  | none =>
    rw [dedupStep_none_eq hl] at hq
    rcases List.mem_append.mp hq with hq | hq
    · exact Or.inl hq
    · exact Or.inr (List.mem_singleton.mp hq)
  | some existing =>
    by_cases hb : (endsWithStr p.filename ".test.tsx"
        && !endsWithStr existing.filename ".test.tsx") = true
    · rw [Bool.and_eq_true, Bool.not_eq_true'] at hb
      rw [dedupStep_replace_eq hl hb.1 hb.2] at hq
      rcases List.mem_append.mp hq with hq | hq
      · exact Or.inl (List.mem_of_mem_erase hq)
      · exact Or.inr (List.mem_singleton.mp hq)
    · rw [dedupStep_keep_eq hl (Bool.eq_false_iff.mpr hb)] at hq
      exact Or.inl hq

lemma dedupStep_base_preserved {seen : List (String × TestProposal)}
    {filtered : List TestProposal} {p : TestProposal} {k : String}
    (h : DedupState seen filtered) (hex : ∃ q ∈ filtered, proposalBase q = k) :
    ∃ q ∈ (dedupStep (seen, filtered) p).2, proposalBase q = k := by
  obtain ⟨hnd, hsome, hmem⟩ := h
  obtain ⟨q, hq, hqk⟩ := hex
  cases hl : seen.lookup (proposalBase p) with
  | none =>
    rw [dedupStep_none_eq hl]
    exact ⟨q, List.mem_append_left _ hq, hqk⟩
  | some existing =>
    obtain ⟨hexmem, hexbase⟩ := hsome _ _ hl
    by_cases hb : (endsWithStr p.filename ".test.tsx"
        && !endsWithStr existing.filename ".test.tsx") = true
    · rw [Bool.and_eq_true, Bool.not_eq_true'] at hb
      rw [dedupStep_replace_eq hl hb.1 hb.2]
      by_cases hkp : k = proposalBase p
      · exact ⟨p, List.mem_append_right _ (List.mem_singleton_self _), hkp.symm⟩
      · have hqne : q ≠ existing := by
          intro he
          apply hkp
          rw [← hqk, he, hexbase]
        exact ⟨q, List.mem_append_left _ ((List.mem_erase_of_ne hqne).mpr hq), hqk⟩
    · rw [dedupStep_keep_eq hl (Bool.eq_false_iff.mpr hb)]
      exact ⟨q, hq, hqk⟩

lemma dedupStep_base_new {seen : List (String × TestProposal)}
    {filtered : List TestProposal} {p : TestProposal} (h : DedupState seen filtered) :
    ∃ q ∈ (dedupStep (seen, filtered) p).2, proposalBase q = proposalBase p := by
  obtain ⟨hnd, hsome, hmem⟩ := h
  cases hl : seen.lookup (proposalBase p) with
  | none =>
    rw [dedupStep_none_eq hl]
    exact ⟨p, List.mem_append_right _ (List.mem_singleton_self _), rfl⟩
  | some existing =>
    obtain ⟨hexmem, hexbase⟩ := hsome _ _ hl
    by_cases hb : (endsWithStr p.filename ".test.tsx"
        && !endsWithStr existing.filename ".test.tsx") = true
    · rw [Bool.and_eq_true, Bool.not_eq_true'] at hb
      rw [dedupStep_replace_eq hl hb.1 hb.2]
      exact ⟨p, List.mem_append_right _ (List.mem_singleton_self _), rfl⟩
    · rw [dedupStep_keep_eq hl (Bool.eq_false_iff.mpr hb)]
      exact ⟨existing, hexmem, hexbase⟩

lemma dedupStep_lookup_mono {seen : List (String × TestProposal)}
    {filtered : List TestProposal} {p : TestProposal} {k : String}
    (h : seen.lookup k ≠ none) :
    (dedupStep (seen, filtered) p).1.lookup k ≠ none := by
  cases hsk : seen.lookup k with
  | none => exact absurd hsk h
  | some w =>
    cases hl : seen.lookup (proposalBase p) with
    | none =>
      rw [dedupStep_none_eq hl]
      rw [show (seen ++ [(proposalBase p, p)], filtered ++ [p]).1
          = seen ++ [(proposalBase p, p)] from rfl]
      rw [lookup_append_single_of_some hsk]
      simp
    | some existing =>
      by_cases hb : (endsWithStr p.filename ".test.tsx"
          && !endsWithStr existing.filename ".test.tsx") = true
      · rw [Bool.and_eq_true, Bool.not_eq_true'] at hb
        rw [dedupStep_replace_eq hl hb.1 hb.2]
        show (seen.map (fun kv =>
            if kv.1 = proposalBase p then (proposalBase p, p) else kv)).lookup k ≠ none
        rw [lookup_map_overwrite]
        by_cases hk : k = proposalBase p
        · rw [if_pos hk]
          rw [show seen.lookup (proposalBase p) = some existing from hl]
          simp
        · rw [if_neg hk, hsk]
          simp
      · rw [dedupStep_keep_eq hl (Bool.eq_false_iff.mpr hb)]
        show seen.lookup k ≠ none
        rw [hsk]
        simp

lemma dedupStep_tsx_preserve {seen : List (String × TestProposal)}
    {filtered : List TestProposal} {p : TestProposal} {k : String}
    (h : DedupState seen filtered) (hin : seen.lookup k ≠ none)
    (hk : ∀ q ∈ filtered, proposalBase q = k → endsWithStr q.filename ".test.tsx" = true) :
    ∀ q ∈ (dedupStep (seen, filtered) p).2, proposalBase q = k →
      endsWithStr q.filename ".test.tsx" = true := by
  obtain ⟨hnd, hsome, hmem⟩ := h
  intro q hq hbq
  cases hl : seen.lookup (proposalBase p) with
  | none =>
    rw [dedupStep_none_eq hl] at hq
    rcases List.mem_append.mp hq with hq | hq
    · exact hk q hq hbq
    · rw [List.mem_singleton] at hq
      subst hq
      rw [hbq] at hl
      exact absurd hl hin
  | some existing =>
    by_cases hb : (endsWithStr p.filename ".test.tsx"
        && !endsWithStr existing.filename ".test.tsx") = true
    · rw [Bool.and_eq_true, Bool.not_eq_true'] at hb
      rw [dedupStep_replace_eq hl hb.1 hb.2] at hq
      rcases List.mem_append.mp hq with hq | hq
      · exact hk q (List.mem_of_mem_erase hq) hbq
      · rw [List.mem_singleton] at hq
        subst hq
        exact hb.1
    · rw [dedupStep_keep_eq hl (Bool.eq_false_iff.mpr hb)] at hq
      exact hk q hq hbq

lemma dedupStep_tsx_establish {seen : List (String × TestProposal)}
    {filtered : List TestProposal} {p : TestProposal} (h : DedupState seen filtered)
    (hp : endsWithStr p.filename ".test.tsx" = true) :
    (∀ q ∈ (dedupStep (seen, filtered) p).2, proposalBase q = proposalBase p →
        endsWithStr q.filename ".test.tsx" = true)
    ∧ (dedupStep (seen, filtered) p).1.lookup (proposalBase p) ≠ none := by
  obtain ⟨hnd, hsome, hmem⟩ := h
  cases hl : seen.lookup (proposalBase p) with
  | none =>
    rw [dedupStep_none_eq hl]
    constructor
    · intro q hq hbq
      rcases List.mem_append.mp hq with hq | hq
      · exact absurd (by rw [hbq]; exact hl) (hmem q hq)
      · rw [List.mem_singleton] at hq
        subst hq
        exact hp
    · show (seen ++ [(proposalBase p, p)]).lookup (proposalBase p) ≠ none
      rw [lookup_append_single_of_none hl, if_pos rfl]
      simp
  | some existing =>
    obtain ⟨hexmem, hexbase⟩ := hsome _ _ hl
    by_cases hb : (endsWithStr p.filename ".test.tsx"
        && !endsWithStr existing.filename ".test.tsx") = true
    · rw [Bool.and_eq_true, Bool.not_eq_true'] at hb
      rw [dedupStep_replace_eq hl hb.1 hb.2]
      constructor
      · intro q hq hbq
        rcases List.mem_append.mp hq with hq | hq
        · exfalso
          have hqf := List.mem_of_mem_erase hq
          have hqe : q = existing := base_inj hnd hqf hexmem (by rw [hbq, ← hexbase])
          subst hqe
          have hfn : filtered.Nodup := List.Nodup.of_map _ hnd
          rw [hfn.mem_erase_iff] at hq
          exact hq.1 rfl
        · rw [List.mem_singleton] at hq
          subst hq
          exact hp
      · show (seen.map (fun kv =>
            if kv.1 = proposalBase p then (proposalBase p, p) else kv)).lookup
              (proposalBase p) ≠ none
        rw [lookup_map_overwrite, if_pos rfl, hl]
        simp
    · have hextsx : endsWithStr existing.filename ".test.tsx" = true := by
        by_contra hc
        rw [Bool.not_eq_true] at hc
        exact hb (by rw [hp, hc]; rfl)
      rw [dedupStep_keep_eq hl (Bool.eq_false_iff.mpr hb)]
      constructor
      · intro q hq hbq
        have hqe : q = existing := base_inj hnd hq hexmem (by rw [hbq, ← hexbase])
        rw [hqe]
        exact hextsx
      · show seen.lookup (proposalBase p) ≠ none
        rw [hl]
        simp

lemma dedupFold_state :
    ∀ (l : List TestProposal) (seen : List (String × TestProposal))
      (filtered : List TestProposal), DedupState seen filtered →
      DedupState (l.foldl dedupStep (seen, filtered)).1
        (l.foldl dedupStep (seen, filtered)).2 := by
  intro l
  induction l with
  | nil =>
    intro seen filtered h
    exact h
  | cons p t ih =>
    intro seen filtered h
    rw [List.foldl_cons]
    have hstep := dedupStep_state h p
    rcases hd : dedupStep (seen, filtered) p with ⟨s', f'⟩
    rw [hd] at hstep
    exact ih s' f' hstep

lemma dedupFold_mem :
    ∀ (l : List TestProposal) (seen : List (String × TestProposal))
      (filtered : List TestProposal) (q : TestProposal),
      q ∈ (l.foldl dedupStep (seen, filtered)).2 → q ∈ filtered ∨ q ∈ l := by
  intro l
  induction l with
  | nil =>
    intro seen filtered q hq
    exact Or.inl hq
  | cons p t ih =>
    intro seen filtered q hq
    rw [List.foldl_cons] at hq
    rcases hd : dedupStep (seen, filtered) p with ⟨s', f'⟩
    rw [hd] at hq
    rcases ih s' f' q hq with hq' | hq'
    · rcases dedupStep_mem (by rw [hd]; exact hq') with h1 | h1
      · exact Or.inl h1
      · exact Or.inr (by rw [h1]; exact List.mem_cons_self _ _)
    · exact Or.inr (List.mem_cons_of_mem _ hq')

lemma dedupFold_base_preserved :
    ∀ (l : List TestProposal) (seen : List (String × TestProposal))
      (filtered : List TestProposal) (k : String), DedupState seen filtered →
      (∃ q ∈ filtered, proposalBase q = k) →
      ∃ q ∈ (l.foldl dedupStep (seen, filtered)).2, proposalBase q = k := by
  intro l
  induction l with
  | nil =>
    intro seen filtered k _ hex
    exact hex
  | cons p t ih =>
    intro seen filtered k h hex
    rw [List.foldl_cons]
    have hstep := dedupStep_state h p
    have hex' := dedupStep_base_preserved (p := p) h hex
    rcases hd : dedupStep (seen, filtered) p with ⟨s', f'⟩
    rw [hd] at hstep hex'
    exact ih s' f' k hstep hex'

lemma dedupFold_base_cover :
    ∀ (l : List TestProposal) (seen : List (String × TestProposal))
      (filtered : List TestProposal), DedupState seen filtered →
      ∀ q ∈ l, ∃ r ∈ (l.foldl dedupStep (seen, filtered)).2,
        proposalBase r = proposalBase q := by
  intro l
  induction l with
  | nil =>
    intro seen filtered _ q hq
    exact absurd hq (List.not_mem_nil q)
  | cons p t ih =>
    intro seen filtered h q hq
    rw [List.foldl_cons]
    have hstep := dedupStep_state h p
    rcases List.mem_cons.mp hq with he | hq'
    · subst he
      have hnew := dedupStep_base_new (p := q) h
      rcases hd : dedupStep (seen, filtered) q with ⟨s', f'⟩
      rw [hd] at hstep hnew
      exact dedupFold_base_preserved t s' f' (proposalBase q) hstep hnew
    · rcases hd : dedupStep (seen, filtered) p with ⟨s', f'⟩
      rw [hd] at hstep
      exact ih s' f' hstep q hq'

lemma dedupFold_tsx_preserve :
    ∀ (l : List TestProposal) (seen : List (String × TestProposal))
      (filtered : List TestProposal) (k : String), DedupState seen filtered →
      seen.lookup k ≠ none →
      (∀ q ∈ filtered, proposalBase q = k → endsWithStr q.filename ".test.tsx" = true) →
      ∀ q ∈ (l.foldl dedupStep (seen, filtered)).2, proposalBase q = k →
        endsWithStr q.filename ".test.tsx" = true := by
  intro l
  induction l with
  | nil =>
    intro seen filtered k _ _ hk q hq hbq
    exact hk q hq hbq
  | cons p t ih =>
    intro seen filtered k h hin hk q hq hbq
    rw [List.foldl_cons] at hq
    have hstep := dedupStep_state h p
    have hin' : (dedupStep (seen, filtered) p).1.lookup k ≠ none :=
      dedupStep_lookup_mono hin
    have hk' := dedupStep_tsx_preserve h hin hk (p := p)
    rcases hd : dedupStep (seen, filtered) p with ⟨s', f'⟩
    rw [hd] at hq hstep hin' hk'
    exact ih s' f' k hstep hin' hk' q hq hbq

lemma dedupFold_tsx_wins :
    ∀ (l : List TestProposal) (seen : List (String × TestProposal))
      (filtered : List TestProposal), DedupState seen filtered →
      ∀ q ∈ l, endsWithStr q.filename ".test.tsx" = true →
      ∀ r ∈ (l.foldl dedupStep (seen, filtered)).2,
        proposalBase r = proposalBase q → endsWithStr r.filename ".test.tsx" = true := by
  intro l
  induction l with
  | nil =>
    intro seen filtered _ q hq
    exact absurd hq (List.not_mem_nil q)
  | cons p t ih =>
    intro seen filtered h q hq hqtsx r hr hbr
    rw [List.foldl_cons] at hr
    have hstep := dedupStep_state h p
    rcases List.mem_cons.mp hq with he | hq'
    · subst he
      obtain ⟨hset, hlook⟩ := dedupStep_tsx_establish h hqtsx
      rcases hd : dedupStep (seen, filtered) q with ⟨s', f'⟩
      rw [hd] at hr hstep hset hlook
      exact dedupFold_tsx_preserve t s' f' (proposalBase q) hstep hlook hset r hr hbr
    · rcases hd : dedupStep (seen, filtered) p with ⟨s', f'⟩
      rw [hd] at hr hstep
      exact ih s' f' hstep q hq' hqtsx r hr hbr

lemma dedupFold_pass :
    ∀ (l : List TestProposal) (seen : List (String × TestProposal))
      (filtered : List TestProposal), DedupState seen filtered →
      ((filtered ++ l).map proposalBase).Nodup →
      (l.foldl dedupStep (seen, filtered)).2 = filtered ++ l := by
  intro l
  induction l with
  | nil =>
    intro seen filtered _ _
    simp
  | cons p t ih =>
    intro seen filtered h hnd
    obtain ⟨hnd0, hsome, hmem⟩ := h
    have hlook : seen.lookup (proposalBase p) = none := by
      cases hsk : seen.lookup (proposalBase p) with
      | none => rfl
      | some w =>
        obtain ⟨hin, hbw⟩ := hsome _ _ hsk
        exfalso
        rw [List.map_append, List.nodup_append] at hnd
        exact hnd.2.2 (List.mem_map_of_mem _ hin)
          (by rw [hbw, List.map_cons]; exact List.mem_cons_self _ _)
    rw [List.foldl_cons, dedupStep_none_eq hlook]
    have h' := dedupStep_state ⟨hnd0, hsome, hmem⟩ p
    rw [dedupStep_none_eq hlook] at h'
    have hnd' : (((filtered ++ [p]) ++ t).map proposalBase).Nodup := by
      rw [List.append_assoc, List.singleton_append]
      exact hnd
    rw [ih (seen ++ [(proposalBase p, p)]) (filtered ++ [p]) h' hnd']
    rw [List.append_assoc, List.singleton_append]

lemma finalize_eq (rawProposals : List TestProposal) (context : PullRequestContextWithTests) :
    finalizeTestProposals rawProposals context
      = ((rawProposals.map (adjustProposal (isReactContext context))).foldl
          dedupStep ([], [])).2 := rfl

/-- Counterexample to claim C5 as stated, refuting clauses (b) and (c) at
explicit inputs in a markup-bearing context.  (b): a raw proposal whose
filename matches neither test-extension pattern (here `Foo.ts`) passes
post-processing with its extension unchanged, so its survivor does not use
the markup test extension.  (c): a raw proposal whose path merely contains
the `__tests__/unit` substring deeper in the tree (here
`src/components/__tests__/unit/Foo.test.tsx`) passes the substring check
and survives unchanged, at a path that does not lie under the
`__tests__/unit` test root (the root is not a prefix of it). -/
theorem finalize_extension_counterexample :
    isReactContext ctxReact = true
    ∧ (finalizeTestProposals [{ filename := "Foo.ts", testContent := "t",
                                actions := ⟨.create, ""⟩ }] ctxReact).map (fun p => p.filename)
        = ["__tests__/unit/Foo.ts"]
    ∧ endsWithStr "__tests__/unit/Foo.ts" ".test.tsx" = false
    ∧ (finalizeTestProposals [{ filename := "src/components/__tests__/unit/Foo.test.tsx",
                                testContent := "t",
                                actions := ⟨.create, ""⟩ }] ctxReact).map (fun p => p.filename)
        = ["src/components/__tests__/unit/Foo.test.tsx"]
    ∧ ("__tests__/unit/" : String).data.isPrefixOf
        ("src/components/__tests__/unit/Foo.test.tsx" : String).data = false := by
  refine ⟨by decide, by decide, by decide, by decide, by decide⟩

/-- Core properties of `finalizeTestProposals`, shared by the developments
below: distinct base names, survivors drawn from the normalised proposals,
base-name coverage, markup-wins, test-root containment, and absence of the
wrong extension. -/
lemma finalize_laws_core (rawProposals : List TestProposal)
    (context : PullRequestContextWithTests) :
    ((finalizeTestProposals rawProposals context).map proposalBase).Nodup
    ∧ (∀ p ∈ finalizeTestProposals rawProposals context,
        p ∈ rawProposals.map (adjustProposal (isReactContext context)))
    ∧ (∀ q ∈ rawProposals.map (adjustProposal (isReactContext context)),
        ∃ r ∈ finalizeTestProposals rawProposals context, proposalBase r = proposalBase q)
    ∧ (∀ q ∈ rawProposals.map (adjustProposal (isReactContext context)),
        endsWithStr q.filename ".test.tsx" = true →
        ∀ r ∈ finalizeTestProposals rawProposals context,
          proposalBase r = proposalBase q → endsWithStr r.filename ".test.tsx" = true)
    ∧ (∀ p ∈ finalizeTestProposals rawProposals context,
        containsStr p.filename "__tests__/unit" = true)
    ∧ (isReactContext context = true → ∀ p ∈ finalizeTestProposals rawProposals context,
        endsWithStr p.filename ".test.ts" = false)
    ∧ (isReactContext context = false → ∀ p ∈ finalizeTestProposals rawProposals context,
        endsWithStr p.filename ".test.tsx" = false) := by
  rw [finalize_eq]
  set mapped := rawProposals.map (adjustProposal (isReactContext context)) with hm
  have memOf : ∀ p ∈ (mapped.foldl dedupStep ([], [])).2, p ∈ mapped := by
    intro p hp
    rcases dedupFold_mem mapped [] [] p hp with h | h
    · exact absurd h (List.not_mem_nil p)
    · exact h
  refine ⟨?_, memOf, ?_, ?_, ?_, ?_, ?_⟩
  · exact (dedupFold_state mapped [] [] dedupState_nil).1
  · intro q hq
    exact dedupFold_base_cover mapped [] [] dedupState_nil q hq
  · intro q hq hqtsx r hr hbr
    exact dedupFold_tsx_wins mapped [] [] dedupState_nil q hq hqtsx r hr hbr
  · intro p hp
    obtain ⟨raw, hraw, hpe⟩ := List.mem_map.mp (memOf p hp)
    rw [← hpe]
    exact adjustProposal_contains _ _
  · intro hR p hp
    obtain ⟨raw, hraw, hpe⟩ := List.mem_map.mp (memOf p hp)
    rw [← hpe, hR]
    exact adjustProposal_true_not_ts raw
  · intro hR p hp
    obtain ⟨raw, hraw, hpe⟩ := List.mem_map.mp (memOf p hp)
    rw [← hpe, hR]
    exact adjustProposal_false_not_tsx raw

/-- Claim C5, amended.  For every raw proposal list and context, after
post-processing: (a) the surviving proposals have pairwise-distinct base
names, each survivor is one of the normalised proposals, every normalised
proposal's base name has exactly one survivor, and whenever a markup
(`.test.tsx`) proposal was present for a base name, that base name's
survivor carries the markup extension; (b) no survivor carries the wrong
test extension — never `.test.ts` in a markup-bearing context and never
`.test.tsx` otherwise (a filename matching neither pattern passes through
with its extension unchanged); (c) every surviving path contains the
`__tests__/unit` segment (the prefix is added only when that substring is
absent, so containment is by substring rather than by path prefix). -/
theorem finalize_post_laws (rawProposals : List TestProposal)
    (context : PullRequestContextWithTests) :
    ((finalizeTestProposals rawProposals context).map proposalBase).Nodup
    ∧ (∀ p ∈ finalizeTestProposals rawProposals context,
        p ∈ rawProposals.map (adjustProposal (isReactContext context)))
    ∧ (∀ q ∈ rawProposals.map (adjustProposal (isReactContext context)),
        ∃ r ∈ finalizeTestProposals rawProposals context, proposalBase r = proposalBase q)
    ∧ (∀ q ∈ rawProposals.map (adjustProposal (isReactContext context)),
        endsWithStr q.filename ".test.tsx" = true →
        ∀ r ∈ finalizeTestProposals rawProposals context,
          proposalBase r = proposalBase q → endsWithStr r.filename ".test.tsx" = true)
    ∧ (∀ p ∈ finalizeTestProposals rawProposals context,
        containsStr p.filename "__tests__/unit" = true)
    ∧ (isReactContext context = true → ∀ p ∈ finalizeTestProposals rawProposals context,
        endsWithStr p.filename ".test.ts" = false)
    ∧ (isReactContext context = false → ∀ p ∈ finalizeTestProposals rawProposals context,
        endsWithStr p.filename ".test.tsx" = false) :=
  finalize_laws_core rawProposals context

/-- Witness for C5 (amended): in the markup context, a `.test.ts` proposal
is normalised and its survivor does not carry the plain extension. -/
theorem finalize_post_laws_witness :
    endsWithStr "__tests__/unit/Foo.test.tsx" ".test.ts" = false := by
  have h := finalize_post_laws [{ filename := "Foo.test.ts", testContent := "t",
                                  actions := ⟨.create, ""⟩ }] ctxReact
  exact h.2.2.2.2.2.1 (by decide)
    { filename := "__tests__/unit/Foo.test.tsx", testContent := "t",
      actions := ⟨.create, ""⟩ } (by decide)

/-- Claim C10.  The test-proposal post-processor is idempotent: applying
`finalizeTestProposals` to its own output (in the same context) returns that
output unchanged. -/
theorem finalize_idempotent (rawProposals : List TestProposal)
    (context : PullRequestContextWithTests) :
    finalizeTestProposals (finalizeTestProposals rawProposals context) context
      = finalizeTestProposals rawProposals context := by
  obtain ⟨hnd, hmem, hcov, htsxwin, hcontains, hts, htsx⟩ :=
    finalize_laws_core rawProposals context
  set out := finalizeTestProposals rawProposals context with ho
  have hmap : out.map (adjustProposal (isReactContext context)) = out := by
    have hpt : ∀ p ∈ out, adjustProposal (isReactContext context) p = p := by
      intro p hp
      apply adjustProposal_id (hcontains p hp)
      · intro hR
        exact hts hR p hp
      · intro hR
        exact htsx hR p hp
    rw [List.map_congr_left (g := id) hpt, List.map_id]
  rw [finalize_eq, hmap]
  have hpass := dedupFold_pass out [] [] dedupState_nil (by simpa using hnd)
  simpa using hpass

end AgentFlow
